import Mathlib

/- Shallow embedding of the kd-tree spatial index of the r3d repository
   (src/geo/src/spatial_index/kdtree.rs) together with the sphere primitive
   (src/geo/src/primitive/sphere.rs).

   Scalars are modelled as an arbitrary linearly ordered field (instantiated at ℚ for
   concrete executions and at ℝ for the sphere, whose intersection routine needs a
   square root).  Arithmetic on finite values is exact; the IEEE special values that
   the traversal can actually produce — ±∞ and NaN coming out of the division
   `(split_value - origin) / dir` and the `f64::INFINITY` upper bound of the top-level
   query — are modelled explicitly by the type `Fp`, whose comparison operators follow
   IEEE semantics (every comparison with NaN is false).  The negative zero of IEEE
   arithmetic is not modelled: the sign of an infinite quotient follows the sign of
   the exact numerator. -/

namespace R3d

/-- One of the three spatial axes.  Modelled from the spec: the `Axis` type of the
geo crate is not among the sources; the spec describes a split axis as "one of three
spatial axes". -/
inductive Axis where
  | X
  | Y
  | Z
deriving DecidableEq

/-- Modelled from the spec: the vector/point type of the geo crate (three scalar
components, indexable per axis). -/
structure Vec3 (α : Type) where
  x : α
  y : α
  z : α
deriving DecidableEq

/-- Per-axis indexing `v[axis]` of a vector. -/
def Vec3.get {α : Type} (v : Vec3 α) : Axis → α
  | Axis.X => v.x
  | Axis.Y => v.y
  | Axis.Z => v.z

def Vec3.sub {α : Type} [Sub α] (a b : Vec3 α) : Vec3 α :=
  ⟨a.x - b.x, a.y - b.y, a.z - b.z⟩

def Vec3.dot {α : Type} [Mul α] [Add α] (a b : Vec3 α) : α :=
  a.x * b.x + a.y * b.y + a.z * b.z

def Vec3.addScalar {α : Type} [Add α] (v : Vec3 α) (k : α) : Vec3 α :=
  ⟨v.x + k, v.y + k, v.z + k⟩

def Vec3.subScalar {α : Type} [Sub α] (v : Vec3 α) (k : α) : Vec3 α :=
  ⟨v.x - k, v.y - k, v.z - k⟩

/-- Modelled from the spec: the axis-aligned bounding box of the geo crate, given by
its minimum and maximum corners ("axis-aligned min/max extents"). -/
structure Aabb (α : Type) where
  min : Vec3 α
  max : Vec3 α
deriving DecidableEq

/-- Modelled from the spec: the center of a bounding box ("center computation"),
the midpoint of the two corners.  This choice is validated against the repository
test `test_best_partitioning`, whose expected axes and split values it reproduces. -/
def Aabb.center {α : Type} [LinearOrderedField α] (b : Aabb α) : Vec3 α :=
  ⟨(b.min.x + b.max.x) / 2, (b.min.y + b.max.y) / 2, (b.min.z + b.max.z) / 2⟩

/-- Modelled from the spec: `Aabb::new` of the geo crate builds a degenerate box
around a single point. -/
def Aabb.new {α : Type} (p : Vec3 α) : Aabb α :=
  ⟨p, p⟩

/-- Modelled from the spec: expanding a bounding box to also contain a point
(componentwise min/max of the corners). -/
def Aabb.expand {α : Type} [LinearOrder α] (b : Aabb α) (p : Vec3 α) : Aabb α :=
  ⟨⟨Min.min b.min.x p.x, Min.min b.min.y p.y, Min.min b.min.z p.z⟩,
   ⟨Max.max b.max.x p.x, Max.max b.max.y p.y, Max.max b.max.z p.z⟩⟩

/-- Modelled from the spec: the ray type of the geo crate (origin, direction,
indexable per-axis components). -/
structure Ray (α : Type) where
  origin : Vec3 α
  dir : Vec3 α
deriving DecidableEq

/-- Modelled from the spec: the ray parametrization — the point of the ray at
parameter `t` is `origin + dir * t`. -/
def Ray.pointAt {α : Type} [Mul α] [Add α] (ray : Ray α) (t : α) : Vec3 α :=
  ⟨ray.origin.x + ray.dir.x * t, ray.origin.y + ray.dir.y * t, ray.origin.z + ray.dir.z * t⟩

/-- An `f64` value as the kd-tree traversal sees it: a finite scalar, one of the two
infinities, or NaN. -/
inductive Fp (α : Type) where
  | nan : Fp α
  | ninf : Fp α
  | pinf : Fp α
  | fin : α → Fp α
deriving DecidableEq

/-- IEEE `<=` on modelled floats: false whenever either side is NaN. -/
def Fp.le {α : Type} [LinearOrder α] : Fp α → Fp α → Bool
  | .nan, _ => false
  | _, .nan => false
  | .ninf, _ => true
  | _, .pinf => true
  | .pinf, _ => false
  | _, .ninf => false
  | .fin a, .fin b => decide (a ≤ b)

/-- IEEE `<` on modelled floats: false whenever either side is NaN. -/
def Fp.lt {α : Type} [LinearOrder α] : Fp α → Fp α → Bool
  | .nan, _ => false
  | _, .nan => false
  | .pinf, _ => false
  | _, .pinf => true
  | .ninf, .ninf => false
  | .ninf, _ => true
  | _, .ninf => false
  | .fin a, .fin b => decide (a < b)

/-- IEEE division of two finite values, as used for
`(split_value - ray.origin[axis]) / ray.dir[axis]` in `Node::intersection`:
division by zero yields a signed infinity, `0 / 0` yields NaN. -/
def fdiv {α : Type} [LinearOrderedField α] (num den : α) : Fp α :=
  if den = 0 then
    if num = 0 then Fp.nan
    else if 0 < num then Fp.pinf
    else Fp.ninf
  else Fp.fin (num / den)

/-- maximum number of elements each leaf can contain (kdtree.rs). -/
def LEAF_SIZE : Nat := 8

/-- `partition_bbox` of kdtree.rs: where a bounding box lies with respect to the
split plane `value` on `axis` — left membership iff `bbox.min()[axis] <= c`, right
membership iff `bbox.max()[axis] >= c`. -/
def partition_bbox {α : Type} [LinearOrder α] (bbox : Aabb α) (axis : Axis) (c : α) :
    Bool × Bool :=
  (decide (bbox.min.get axis ≤ c), decide (bbox.max.get axis ≥ c))

/-- `partition` of kdtree.rs.  The Rust loop pops shape/bbox pairs from the back of
the two (same-length) vectors and pushes each to every side whose `partition_bbox`
flag is set; processing the reversed zip front-to-back is the same computation. -/
def partition {α T : Type} [LinearOrder α] (shapes : List T) (bboxes : List (Aabb α))
    (split_axis : Axis) (split_value : α) :
    (List T × List (Aabb α)) × (List T × List (Aabb α)) :=
  let pairs := (shapes.zip bboxes).reverse
  let lefts := pairs.filter fun p => (partition_bbox p.2 split_axis split_value).1
  let rights := pairs.filter fun p => (partition_bbox p.2 split_axis split_value).2
  ((lefts.map Prod.fst, lefts.map Prod.snd), (rights.map Prod.fst, rights.map Prod.snd))

/-- Modelled from the spec: `ksmallest_by` (src/geo/src/util.rs, which is not among
the sources) is described as "a selection algorithm that finds the k-th smallest
element"; denotationally it is the element at index `k` of the sorted collection.
`best_partitioning` only ever reads the selected center's coordinate on the probed
axis, so the model selects directly from the list of coordinates. -/
def ksmallest {α : Type} [LinearOrder α] (l : List α) (k : Nat) : Option α :=
  (l.mergeSort fun a b => decide (a ≤ b))[k]?

/-- The `partion_score` closure of `best_partitioning` (kdtree.rs): the larger of the
number of boxes with left membership and the number with right membership.  The Rust
code counts in one pass with two counters; counting by `filter`/`length` is the same. -/
def partion_score {α : Type} [LinearOrder α] (bboxes : List (Aabb α)) (axis : Axis)
    (value : α) : Nat :=
  Max.max ((bboxes.filter fun b => (partition_bbox b axis value).1).length)
    ((bboxes.filter fun b => (partition_bbox b axis value).2).length)

/-- The candidate split value tried by `best_partitioning` for one axis: the
`(len / 2)`-th smallest of the bounding-box centers' coordinates on that axis.
`none` models the `unwrap` panic on an empty input. -/
def axisCandidate {α : Type} [LinearOrderedField α] (bboxes : List (Aabb α))
    (axis : Axis) : Option α :=
  ksmallest (bboxes.map fun b => (Aabb.center b).get axis) (bboxes.length / 2)

/-- `Iterator::min_by` on the three axis candidates, keyed by score; on equal scores
the earlier element wins, as in Rust. -/
def minBy3 {α : Type} (c1 c2 c3 : Axis × α × Nat) : Axis × α × Nat :=
  let step := fun (acc c : Axis × α × Nat) => if c.2.2 < acc.2.2 then c else acc
  step (step c1 c2) c3

/-- `best_partitioning` of kdtree.rs: for each axis take the median center
coordinate as candidate split value, score each candidate with `partion_score`, and
return the first candidate of minimal score.  `none` models the panic on an empty
input (`ksmallest_by(..).unwrap()`). -/
def best_partitioning {α : Type} [LinearOrderedField α] (bboxes : List (Aabb α)) :
    Option (Axis × α) :=
  match axisCandidate bboxes Axis.X, axisCandidate bboxes Axis.Y,
      axisCandidate bboxes Axis.Z with
  | some vx, some vy, some vz =>
    let best := minBy3 ⟨Axis.X, vx, partion_score bboxes Axis.X vx⟩
      ⟨Axis.Y, vy, partion_score bboxes Axis.Y vy⟩
      ⟨Axis.Z, vz, partion_score bboxes Axis.Z vz⟩
    some (best.1, best.2.1)
  | _, _, _ => none

/-- The `Node` enum of kdtree.rs.  `Arc` sharing is invisible to the value
semantics, so a leaf simply holds its list of shapes. -/
inductive Node (T : Type) (α : Type) where
  | leaf (data : List T)
  | branch (left : Node T α) (right : Node T α) (split_value : α) (split_axis : Axis)
deriving DecidableEq

/-- `Node::new` of kdtree.rs, with an explicit recursion budget: the Rust function
has no such budget, so `Node::new` terminating on some input is modelled as
`Node.newF fuel` succeeding for some (equivalently, every sufficiently large) `fuel`,
and diverging as `Node.newF fuel` returning `none` for every `fuel`.  The `none`
from an empty `best_partitioning` models the panic on an empty over-full input,
which cannot arise from `KdTree::new`. -/
def Node.newF {α T : Type} [LinearOrderedField α] (fuel : Nat) (shapes : List T)
    (bboxes : List (Aabb α)) : Option (Node T α) :=
  match fuel with
  | 0 => none
  | fuel + 1 =>
    if shapes.length ≤ LEAF_SIZE then some (Node.leaf shapes)
    else
      match best_partitioning bboxes with
      | none => none
      | some (split_axis, split_value) =>
        let p := partition shapes bboxes split_axis split_value
        match Node.newF fuel p.1.1 p.1.2, Node.newF fuel p.2.1 p.2.2 with
        | some l, some r => some (Node.branch l r split_value split_axis)
        | _, _ => none

/-- `min_by(|(_, t1), (_, t2)| t1.partial_cmp(t2).unwrap())` of the Leaf arm: the
first element with minimal second component (Rust `min_by` keeps the earlier of two
equal elements). -/
def minByT {α T : Type} [LinearOrder α] : List (T × α) → Option (T × α)
  | [] => none
  | p :: rest =>
    match minByT rest with
    | none => some p
    | some q => if q.2 < p.2 then some q else some p

/-- The candidate hits of the Leaf arm of `Node::intersection`: every shape's own
intersection parameter, kept when it lies within `[tmin, tmax]` (IEEE comparisons). -/
def hitList {α T : Type} [LinearOrder α] (hit : T → Ray α → Option α) (data : List T)
    (ray : Ray α) (tmin tmax : Fp α) : List (T × α) :=
  (data.filterMap fun s => (hit s ray).map fun t => (s, t)).filter
    fun p => Fp.le tmin (Fp.fin p.2) && Fp.le (Fp.fin p.2) tmax

/-- The brute-force scan: test the ray against every shape's intersection routine,
keep the parameters within `[tmin, tmax]`, return a hit of minimal parameter.  This
is exactly the Leaf arm of `Node::intersection`, and also the reference scan that
the spec compares the tree query against. -/
def bruteForce {α T : Type} [LinearOrder α] (hit : T → Ray α → Option α)
    (data : List T) (ray : Ray α) (tmin tmax : Fp α) : Option (T × α) :=
  minByT (hitList hit data ray tmin tmax)

/-- `Node::intersection` of kdtree.rs.  The Rust code binds
`(first, second) = if left_first { (left, right) } else { (right, left) }` once and
then runs one three-way dispatch; here the dispatch is spelled out in both arms of
the `left_first` test so that the recursion stays structural — the two arms are the
same code with `left`/`right` swapped. -/
def Node.intersection {α T : Type} [LinearOrderedField α] (hit : T → Ray α → Option α) :
    Node T α → Ray α → Fp α → Fp α → Option (T × α)
  | Node.leaf data, ray, tmin, tmax => bruteForce hit data ray tmin tmax
  | Node.branch left right split_value split_axis, ray, tmin, tmax =>
    let o := ray.origin.get split_axis
    let d := ray.dir.get split_axis
    let tsplit := fdiv (split_value - o) d
    if o < split_value ∨ (o = split_value ∧ d ≤ 0) then
      if Fp.lt tmax tsplit || Fp.le tsplit (Fp.fin 0) then
        Node.intersection hit left ray tmin tmax
      else if Fp.lt tsplit tmin then
        Node.intersection hit right ray tmin tmax
      else
        (Node.intersection hit left ray tmin tsplit).orElse
          fun _ => Node.intersection hit right ray tsplit tmax
    else
      if Fp.lt tmax tsplit || Fp.le tsplit (Fp.fin 0) then
        Node.intersection hit right ray tmin tmax
      else if Fp.lt tsplit tmin then
        Node.intersection hit left ray tmin tmax
      else
        (Node.intersection hit right ray tmin tsplit).orElse
          fun _ => Node.intersection hit left ray tsplit tmax

/-- The `KdTree` struct of kdtree.rs. -/
structure KdTree (T : Type) (α : Type) where
  root : Node T α
deriving DecidableEq

/-- `KdTree::new` of kdtree.rs (with the recursion budget of `Node.newF`): compute
every shape's bounding box once up front and build the root node. -/
def KdTree.newF {α T : Type} [LinearOrderedField α] (fuel : Nat) (bbox : T → Aabb α)
    (shapes : List T) : Option (KdTree T α) :=
  (Node.newF fuel shapes (shapes.map bbox)).map fun n => ⟨n⟩

/-- `KdTree::intersection` of kdtree.rs: query the root over `[0.0, f64::INFINITY]`. -/
def KdTree.intersection {α T : Type} [LinearOrderedField α] (hit : T → Ray α → Option α)
    (kd : KdTree T α) (ray : Ray α) : Option (T × α) :=
  Node.intersection hit kd.root ray (Fp.fin 0) Fp.pinf

/-- The shapes held in the leaves below a node. -/
def Node.shapes {α T : Type} : Node T α → List T
  | Node.leaf data => data
  | Node.branch l r _ _ => l.shapes ++ r.shapes

/-- Every leaf of the node holds at most `LEAF_SIZE` shapes. -/
def Node.leafSizeOk {α T : Type} : Node T α → Prop
  | Node.leaf data => data.length ≤ LEAF_SIZE
  | Node.branch l r _ _ => l.leafSizeOk ∧ r.leafSizeOk

/-- A bounding box that is well formed on every axis (min does not exceed max). -/
def Boxwf {α T : Type} [LinearOrder α] (bbox : T → Aabb α) (s : T) : Prop :=
  ∀ ax : Axis, (bbox s).min.get ax ≤ (bbox s).max.get ax

/-- The structural invariant the builder establishes and the traversal relies on:
below every branch, a shape of the branch whose (well-formed) box has left
membership for the split plane is present in the left child, and one with right
membership is present in the right child. -/
def Node.WF {α T : Type} [LinearOrder α] (bbox : T → Aabb α) : Node T α → Prop
  | Node.leaf _ => True
  | Node.branch l r v ax =>
    l.WF bbox ∧ r.WF bbox ∧
      (∀ s ∈ l.shapes ++ r.shapes, Boxwf bbox s → (bbox s).min.get ax ≤ v →
        s ∈ l.shapes) ∧
      (∀ s ∈ l.shapes ++ r.shapes, Boxwf bbox s → v ≤ (bbox s).max.get ax →
        s ∈ r.shapes)

/-- A point lies inside a bounding box. -/
def InAabb {α : Type} [LinearOrder α] (p : Vec3 α) (b : Aabb α) : Prop :=
  ∀ ax : Axis, b.min.get ax ≤ p.get ax ∧ p.get ax ≤ b.max.get ax

/-- `(s, t)` is a hit the brute-force scan over `shapes` accepts for the interval
`[tmin, tmax]`. -/
def ValidHit {α T : Type} [LinearOrder α] (hit : T → Ray α → Option α)
    (shapes : List T) (ray : Ray α) (tmin tmax : Fp α) (s : T) (t : α) : Prop :=
  s ∈ shapes ∧ hit s ray = some t ∧ Fp.le tmin (Fp.fin t) = true ∧
    Fp.le (Fp.fin t) tmax = true

/-- What it means for an optional result to be a minimum of the hits accepted by
the predicate `V`: `none` exactly when there is no accepted hit, and a returned
pair is an accepted hit of minimal parameter. -/
def BruteSpec {α T : Type} [LE α] (V : T → α → Prop) : Option (T × α) → Prop
  | none => ∀ s t, ¬ V s t
  | some (s, t) => V s t ∧ ∀ s2 t2, V s2 t2 → t ≤ t2

/-- `ray_intersection` of sphere.rs, over the reals (`discr.sqrt()` is modelled by
`Real.sqrt`; `1e-9` is the exact rational `1 / 1000000000`). -/
noncomputable def sphere.ray_intersection (center : Vec3 ℝ) (radius : ℝ) (ray : Ray ℝ) :
    Option ℝ :=
  let oc := Vec3.sub ray.origin center
  let a := Vec3.dot ray.dir ray.dir
  let b := Vec3.dot oc ray.dir
  let c := Vec3.dot oc oc - radius ^ 2
  let discr := b ^ 2 - a * c
  if discr < 0 then none
  else
    let t0 := (-b - Real.sqrt discr) / a
    if t0 > 1 / 1000000000 then some t0
    else
      let t1 := (-b + Real.sqrt discr) / a
      if t1 > 1 / 1000000000 then some t1 else none

/-- `bounding_box` of sphere.rs. -/
def sphere.bounding_box {α : Type} [LinearOrderedField α] (center : Vec3 α)
    (radius : α) : Aabb α :=
  Aabb.expand (Aabb.new (Vec3.subScalar center radius)) (Vec3.addScalar center radius)

/-- A sphere shape, as the renderer feeds it to the index. -/
structure Sphere where
  center : Vec3 ℝ
  radius : ℝ

noncomputable def Sphere.hitFn (s : Sphere) (ray : Ray ℝ) : Option ℝ :=
  sphere.ray_intersection s.center s.radius ray

noncomputable def Sphere.bboxFn (s : Sphere) : Aabb ℝ :=
  sphere.bounding_box s.center s.radius

/- Concrete inputs used to exercise the embedding. -/

/-- Nine indistinguishable shapes: the input on which construction diverges. -/
def nineShapes : List Unit := List.replicate 9 ()

/-- The common (degenerate) bounding box of the nine identical shapes. -/
def constBox : Unit → Aabb ℚ := fun _ => ⟨⟨0, 0, 0⟩, ⟨0, 0, 0⟩⟩

def nineBoxes : List (Aabb ℚ) := List.replicate 9 ⟨⟨0, 0, 0⟩, ⟨0, 0, 0⟩⟩

/-- A branch whose single shape straddles the split plane `x = 0` and sits in both
children. -/
def nodeC3 : Node Unit ℚ := Node.branch (Node.leaf [()]) (Node.leaf [()]) 0 Axis.X

/-- The shape of `nodeC3` is hit at parameter 1 (consistent with a box around the
origin: the hit point of `rayC3` at 1 is `(0, 1, 0)`). -/
def hitC3 : Unit → Ray ℚ → Option ℚ := fun _ _ => some 1

/-- A ray lying inside the split plane of `nodeC3`: origin on the plane, direction
component zero on the split axis. -/
def rayC3 : Ray ℚ := ⟨⟨0, 0, 0⟩, ⟨0, 1, 0⟩⟩

/-- Nine shapes (identified by index) whose boxes are points at `x = 0 … 8` on the
X axis, except shape 4, whose box straddles the plane `x = 4`. -/
def bbox9 : Nat → Aabb ℚ := fun i =>
  match i with
  | 0 => Aabb.new ⟨0, 0, 0⟩
  | 1 => Aabb.new ⟨1, 0, 0⟩
  | 2 => Aabb.new ⟨2, 0, 0⟩
  | 3 => Aabb.new ⟨3, 0, 0⟩
  | 4 => ⟨⟨7 / 2, -1, -1⟩, ⟨9 / 2, 1, 1⟩⟩
  | 5 => Aabb.new ⟨5, 0, 0⟩
  | 6 => Aabb.new ⟨6, 0, 0⟩
  | 7 => Aabb.new ⟨7, 0, 0⟩
  | _ => Aabb.new ⟨8, 0, 0⟩

/-- Only shape 4 is ever hit, at parameter 1 (for `ray9` the hit point `(4, 1, 0)`
lies inside `bbox9 4`). -/
def hit9 : Nat → Ray ℚ → Option ℚ := fun i _ => if i = 4 then some 1 else none

def shapes9 : List Nat := [0, 1, 2, 3, 4, 5, 6, 7, 8]

/-- A ray inside the split plane `x = 4` that the builder chooses for `shapes9`. -/
def ray9 : Ray ℚ := ⟨⟨4, 0, 0⟩, ⟨0, 1, 0⟩⟩

/-- One-shape scene used as a witness input for the amended refinement claim. -/
def oneBox : Nat → Aabb ℚ := fun _ => ⟨⟨0, 0, 0⟩, ⟨2, 2, 2⟩⟩

def oneHit : Nat → Ray ℚ → Option ℚ := fun _ _ => some 1

def oneRay : Ray ℚ := ⟨⟨0, 0, 0⟩, ⟨1, 1, 1⟩⟩

/-- The unit sphere centered at the origin. -/
noncomputable def unitSphere : Sphere := ⟨⟨0, 0, 0⟩, 1⟩

/-- The ray from `(0,0,-2)` toward `(0,0,1)`. -/
noncomputable def rayIn : Ray ℝ := ⟨⟨0, 0, -2⟩, ⟨0, 0, 1⟩⟩

/-- The ray from `(0,0,2)` toward `(0,0,1)`, pointing away from the unit sphere. -/
noncomputable def rayAway : Ray ℝ := ⟨⟨0, 0, 2⟩, ⟨0, 0, 1⟩⟩

/- ------------------------------------------------------------------ theorems -/

theorem Vec3.get_X {α : Type} (v : Vec3 α) : v.get Axis.X = v.x := rfl

theorem Vec3.get_Y {α : Type} (v : Vec3 α) : v.get Axis.Y = v.y := rfl

theorem Vec3.get_Z {α : Type} (v : Vec3 α) : v.get Axis.Z = v.z := rfl

theorem Ray.pointAt_get {α : Type} [LinearOrderedField α] (ray : Ray α) (t : α)
    (ax : Axis) : (ray.pointAt t).get ax = ray.origin.get ax + ray.dir.get ax * t := by
  cases ax <;> rfl

theorem Fp.le_fin_fin {α : Type} [LinearOrder α] (a b : α) :
    Fp.le (Fp.fin a) (Fp.fin b) = decide (a ≤ b) := rfl

theorem Fp.le_fin_pinf {α : Type} [LinearOrder α] (a : α) :
    Fp.le (Fp.fin a) Fp.pinf = true := rfl

theorem Fp.lt_fin_fin {α : Type} [LinearOrder α] (a b : α) :
    Fp.lt (Fp.fin a) (Fp.fin b) = decide (a < b) := rfl

theorem Fp.lt_pinf_fin {α : Type} [LinearOrder α] (a : α) :
    Fp.lt Fp.pinf (Fp.fin a) = false := rfl

theorem fdiv_of_ne {α : Type} [LinearOrderedField α] (num den : α) (h : den ≠ 0) :
    fdiv num den = Fp.fin (num / den) := by
  simp [fdiv, h]

theorem validHit_fin_fin {α T : Type} [LinearOrder α] (hit : T → Ray α → Option α)
    (S : List T) (ray : Ray α) (a b : α) (s : T) (t : α) :
    ValidHit hit S ray (Fp.fin a) (Fp.fin b) s t ↔
      s ∈ S ∧ hit s ray = some t ∧ a ≤ t ∧ t ≤ b := by
  simp [ValidHit, Fp.le]

theorem validHit_fin_pinf {α T : Type} [LinearOrder α] (hit : T → Ray α → Option α)
    (S : List T) (ray : Ray α) (a : α) (s : T) (t : α) :
    ValidHit hit S ray (Fp.fin a) Fp.pinf s t ↔
      s ∈ S ∧ hit s ray = some t ∧ a ≤ t := by
  simp [ValidHit, Fp.le]

theorem minByT_nil {α T : Type} [LinearOrder α] :
    minByT ([] : List (T × α)) = none := rfl

theorem minByT_eq_none {α T : Type} [LinearOrder α] {l : List (T × α)}
    (h : minByT l = none) : l = [] := by
  cases l with
  | nil => rfl
  | cons p rest =>
    rw [minByT] at h
    cases hrest : minByT rest with
    | none =>
      simp only [hrest] at h
      exact Option.noConfusion h
    | some q =>
      simp only [hrest] at h
      split_ifs at h <;> exact Option.noConfusion h

theorem minByT_mem {α T : Type} [LinearOrder α] {l : List (T × α)} {p : T × α}
    (h : minByT l = some p) : p ∈ l := by
  induction l with
  | nil => cases h
  | cons q rest ih =>
    rw [minByT] at h
    cases hrest : minByT rest with
    | none =>
      simp only [hrest] at h
      cases h
      exact List.mem_cons_self _ _
    | some m =>
      simp only [hrest] at h
      split_ifs at h <;> cases h
      · exact List.mem_cons_of_mem _ (ih hrest)
      · exact List.mem_cons_self _ _

theorem minByT_le {α T : Type} [LinearOrder α] {l : List (T × α)} {p : T × α}
    (h : minByT l = some p) : ∀ q ∈ l, p.2 ≤ q.2 := by
  induction l generalizing p with
  | nil => cases h
  | cons q rest ih =>
    rw [minByT] at h
    intro r hr
    cases hrest : minByT rest with
    | none =>
      simp only [hrest] at h
      cases h
      rcases List.mem_cons.1 hr with rfl | hr2
      · exact le_refl _
      · rw [minByT_eq_none hrest] at hr2
        cases hr2
    | some m =>
      simp only [hrest] at h
      rcases List.mem_cons.1 hr with rfl | hr2
      · split_ifs at h with hm <;> cases h
        · exact le_of_lt hm
        · exact le_refl _
      · split_ifs at h with hm <;> cases h
        · exact ih hrest r hr2
        · exact le_trans (not_lt.1 hm) (ih hrest r hr2)

theorem mem_hitList {α T : Type} [LinearOrder α] (hit : T → Ray α → Option α)
    (data : List T) (ray : Ray α) (tmin tmax : Fp α) (p : T × α) :
    p ∈ hitList hit data ray tmin tmax ↔ ValidHit hit data ray tmin tmax p.1 p.2 := by
  obtain ⟨s, t⟩ := p
  simp only [hitList, ValidHit, List.mem_filter, List.mem_filterMap,
    Option.map_eq_some', Bool.and_eq_true]
  constructor
  · rintro ⟨⟨s2, hs2, t2, ht2, heq⟩, h1, h2⟩
    cases heq
    exact ⟨hs2, ht2, h1, h2⟩
  · rintro ⟨hs, ht, h1, h2⟩
    exact ⟨⟨s, hs, t, ht, rfl⟩, h1, h2⟩

theorem bruteForce_spec {α T : Type} [LinearOrder α] (hit : T → Ray α → Option α)
    (data : List T) (ray : Ray α) (tmin tmax : Fp α) :
    BruteSpec (ValidHit hit data ray tmin tmax) (bruteForce hit data ray tmin tmax) := by
  unfold bruteForce
  cases h : minByT (hitList hit data ray tmin tmax) with
  | none =>
    intro s t hv
    have : (s, t) ∈ hitList hit data ray tmin tmax :=
      (mem_hitList hit data ray tmin tmax (s, t)).2 hv
    rw [minByT_eq_none h] at this
    cases this
  | some p =>
    obtain ⟨s, t⟩ := p
    refine ⟨(mem_hitList hit data ray tmin tmax (s, t)).1 (minByT_mem h), ?_⟩
    intro s2 t2 hv
    exact minByT_le h (s2, t2) ((mem_hitList hit data ray tmin tmax (s2, t2)).2 hv)

theorem BruteSpec.congr_pred {α T : Type} [LE α] {V W : T → α → Prop}
    {R : Option (T × α)} (hVW : ∀ s t, V s t ↔ W s t) (h : BruteSpec V R) :
    BruteSpec W R := by
  cases R with
  | none => intro s t hw; exact h s t ((hVW s t).2 hw)
  | some p =>
    obtain ⟨s, t⟩ := p
    exact ⟨(hVW s t).1 h.1, fun s2 t2 hw => h.2 s2 t2 ((hVW s2 t2).2 hw)⟩

theorem BruteSpec.orElse_spec {α T : Type} [LinearOrder α] {V V1 V2 : T → α → Prop}
    {R1 R2 : Option (T × α)} (h1 : BruteSpec V1 R1) (h2 : BruteSpec V2 R2)
    (hV : ∀ s t, V s t ↔ V1 s t ∨ V2 s t)
    (h12 : ∀ s t s2 t2, V1 s t → V2 s2 t2 → t ≤ t2) :
    BruteSpec V (R1.orElse fun _ => R2) := by
  cases R1 with
  | none =>
    have : (Option.orElse none fun _ => R2) = R2 := by cases R2 <;> rfl
    rw [this]
    refine BruteSpec.congr_pred (fun s t => ?_) h2
    rw [hV s t]
    constructor
    · exact fun h => Or.inr h
    · rintro (hv1 | hv2)
      · exact absurd hv1 (h1 s t)
      · exact hv2
  | some p =>
    obtain ⟨s, t⟩ := p
    have : (Option.orElse (some (s, t)) fun _ => R2) = some (s, t) := rfl
    rw [this]
    refine ⟨(hV s t).2 (Or.inl h1.1), ?_⟩
    intro s2 t2 hv
    rcases (hV s2 t2).1 hv with hv1 | hv2
    · exact h1.2 s2 t2 hv1
    · exact h12 s t s2 t2 h1.1 hv2

theorem BruteSpec.unique {α T : Type} [LinearOrder α] {V : T → α → Prop}
    {R1 R2 : Option (T × α)} (h1 : BruteSpec V R1) (h2 : BruteSpec V R2) :
    (R1 = none ↔ R2 = none) ∧
      (∀ s t s2 t2, R1 = some (s, t) → R2 = some (s2, t2) → t = t2) := by
  constructor
  · constructor
    · intro h
      subst h
      cases R2 with
      | none => rfl
      | some p =>
        obtain ⟨s, t⟩ := p
        exact absurd h2.1 (h1 s t)
    · intro h
      subst h
      cases R1 with
      | none => rfl
      | some p =>
        obtain ⟨s, t⟩ := p
        exact absurd h1.1 (h2 s t)
  · rintro s t s2 t2 rfl rfl
    exact le_antisymm (h1.2 s2 t2 h2.1) (h2.2 s t h1.1)

/-- C4: for every bounding box whose min does not exceed its max on the split axis,
and every split axis and value, the classification rule (left iff
`min[axis] <= split_value`, right iff `max[axis] >= split_value`) assigns the box to
at least one side, and a straddling box is placed in both children by `partition`,
so no shape is lost. -/
theorem c4_no_shape_lost {α T : Type} [LinearOrderedField α] :
    (∀ (b : Aabb α) (ax : Axis) (c : α), b.min.get ax ≤ b.max.get ax →
      (partition_bbox b ax c).1 = true ∨ (partition_bbox b ax c).2 = true) ∧
    (∀ (shapes : List T) (bboxes : List (Aabb α)) (ax : Axis) (c : α) (s : T)
      (b : Aabb α), (s, b) ∈ shapes.zip bboxes →
      b.min.get ax ≤ c → c ≤ b.max.get ax →
      s ∈ (partition shapes bboxes ax c).1.1 ∧ s ∈ (partition shapes bboxes ax c).2.1) := by
  constructor
  · intro b ax c hwf
    by_cases h : b.min.get ax ≤ c
    · left
      simp [partition_bbox, h]
    · right
      have hc : c ≤ b.max.get ax := le_trans (le_of_lt (not_le.1 h)) hwf
      simp [partition_bbox, hc]
  · intro shapes bboxes ax c s b hmem h1 h2
    have hpair : (s, b) ∈ (shapes.zip bboxes).reverse := List.mem_reverse.2 hmem
    constructor
    · simp only [partition]
      refine List.mem_map.2 ⟨(s, b), List.mem_filter.2 ⟨hpair, ?_⟩, rfl⟩
      simp [partition_bbox, h1]
    · simp only [partition]
      refine List.mem_map.2 ⟨(s, b), List.mem_filter.2 ⟨hpair, ?_⟩, rfl⟩
      simp [partition_bbox, h2]

theorem c4_witness :
    (((partition_bbox (bbox9 4) Axis.X (4 : ℚ)).1 = true ∨
        (partition_bbox (bbox9 4) Axis.X (4 : ℚ)).2 = true) ∧
      (4 ∈ (partition shapes9 (shapes9.map bbox9) Axis.X 4).1.1 ∧
        4 ∈ (partition shapes9 (shapes9.map bbox9) Axis.X 4).2.1)) :=
  ⟨(@c4_no_shape_lost ℚ ℕ _).1 (bbox9 4) Axis.X 4 (by with_unfolding_all decide),
    (@c4_no_shape_lost ℚ ℕ _).2 shapes9 (shapes9.map bbox9) Axis.X 4 4 (bbox9 4)
      (by with_unfolding_all decide) (by with_unfolding_all decide)
      (by with_unfolding_all decide)⟩

theorem Node.newF_leafSizeOk {α T : Type} [LinearOrderedField α] :
    ∀ (fuel : Nat) (shapes : List T) (bboxes : List (Aabb α)) (n : Node T α),
      Node.newF fuel shapes bboxes = some n → n.leafSizeOk := by
  intro fuel
  induction fuel with
  | zero => intro shapes bboxes n h; exact Option.noConfusion h
  | succ fuel ih =>
    intro shapes bboxes n h
    rw [Node.newF] at h
    by_cases hlen : shapes.length ≤ LEAF_SIZE
    · rw [if_pos hlen] at h
      cases h
      exact hlen
    · rw [if_neg hlen] at h
      cases hbp : best_partitioning bboxes with
      | none =>
        simp only [hbp] at h
        exact Option.noConfusion h
      | some pv =>
        obtain ⟨ax, v⟩ := pv
        simp only [hbp] at h
        cases hl : Node.newF fuel (partition shapes bboxes ax v).1.1
            (partition shapes bboxes ax v).1.2 with
        | none =>
          simp only [hl] at h
          exact Option.noConfusion h
        | some nl =>
          cases hr : Node.newF fuel (partition shapes bboxes ax v).2.1
              (partition shapes bboxes ax v).2.2 with
          | none =>
            simp only [hl, hr] at h
            exact Option.noConfusion h
          | some nr =>
            simp only [hl, hr] at h
            cases h
            exact ⟨ih _ _ _ hl, ih _ _ _ hr⟩

/-- C5: every leaf of a tree produced by construction holds at most the leaf-size
threshold, and that threshold is 8. -/
theorem c5_leaf_size {α T : Type} [LinearOrderedField α] (fuel : Nat)
    (bbox : T → Aabb α) (shapes : List T) (kd : KdTree T α)
    (h : KdTree.newF fuel bbox shapes = some kd) :
    kd.root.leafSizeOk ∧ LEAF_SIZE = 8 := by
  unfold KdTree.newF at h
  cases hn : Node.newF fuel shapes (shapes.map bbox) with
  | none => rw [hn] at h; cases h
  | some n =>
    rw [hn] at h
    simp only [Option.map_some'] at h
    cases h
    exact ⟨Node.newF_leafSizeOk fuel _ _ _ hn, rfl⟩

theorem c5_witness :
    (⟨Node.leaf [0]⟩ : KdTree ℕ ℚ).root.leafSizeOk ∧ LEAF_SIZE = 8 :=
  c5_leaf_size 2 oneBox [0] ⟨Node.leaf [0]⟩ (by with_unfolding_all decide)

/-- C7: building from the empty shape collection succeeds (for any positive
recursion budget) with a tree whose root is an empty leaf, and querying such a tree
with any ray returns no hit. -/
theorem c7_empty_scene {α T : Type} [LinearOrderedField α] (bbox : T → Aabb α)
    (hit : T → Ray α → Option α) :
    (∀ fuel : Nat, KdTree.newF (fuel + 1) bbox ([] : List T) = some ⟨Node.leaf []⟩) ∧
    (∀ ray : Ray α, KdTree.intersection hit ⟨Node.leaf ([] : List T)⟩ ray = none) := by
  constructor
  · intro fuel
    rfl
  · intro ray
    rfl

/-- C3 fails on the code: for the branch `nodeC3` and the ray `rayC3`, whose
direction component on the split axis is exactly zero and whose origin lies on the
split plane, `t_split` is NaN, every NaN comparison is false, and the traversal
recurses into BOTH children with a NaN interval bound, filtering out every hit: the
query returns no hit although the brute-force scan over the same shapes finds one.
The claimed behavior (treat the division as "does not cross", visit only the first
child with the unchanged interval, stay consistent with brute force) does not hold. -/
theorem c3_nan_split_loses_hits :
    rayC3.dir.get Axis.X = 0 ∧
    Node.intersection hitC3 nodeC3 rayC3 (Fp.fin 0) Fp.pinf = none ∧
    bruteForce hitC3 nodeC3.shapes rayC3 (Fp.fin 0) Fp.pinf = some ((), 1) := by
  with_unfolding_all decide

/-- C6: the child visited first by a branch traversal is the left child exactly when
the ray origin's coordinate on the split axis is strictly less than the split value,
or equal to it with a non-positive direction component; the dispatch over
`t_split` then runs on (first, second) in that order. -/
theorem c6_first_child_rule {α T : Type} [LinearOrderedField α]
    (hit : T → Ray α → Option α) (l r : Node T α) (v : α) (ax : Axis) (ray : Ray α)
    (tmin tmax : Fp α) :
    Node.intersection hit (Node.branch l r v ax) ray tmin tmax =
      (let o := ray.origin.get ax
       let d := ray.dir.get ax
       let tsplit := fdiv (v - o) d
       let first := if o < v ∨ (o = v ∧ d ≤ 0) then l else r
       let second := if o < v ∨ (o = v ∧ d ≤ 0) then r else l
       if Fp.lt tmax tsplit || Fp.le tsplit (Fp.fin 0) then
         Node.intersection hit first ray tmin tmax
       else if Fp.lt tsplit tmin then
         Node.intersection hit second ray tmin tmax
       else
         (Node.intersection hit first ray tmin tsplit).orElse fun _ =>
           Node.intersection hit second ray tsplit tmax) := by
  rw [Node.intersection]
  by_cases h : ray.origin.get ax < v ∨ (ray.origin.get ax = v ∧ ray.dir.get ax ≤ 0) <;>
    simp [h]

theorem nineBoxes_best : best_partitioning nineBoxes = some (Axis.X, 0) := by
  with_unfolding_all decide

theorem nineBoxes_partition :
    partition nineShapes nineBoxes Axis.X 0 =
      ((nineShapes, nineBoxes), (nineShapes, nineBoxes)) := by
  with_unfolding_all decide

/-- C2 fails on the code: for nine identical shapes every bounding box straddles
every candidate split plane, `partition` returns the full input on both sides, and
`Node::new` recurses forever on an input of unchanged size — no recursion budget
makes construction succeed, although the claim says construction always terminates. -/
theorem c2_build_diverges : ∀ fuel : Nat, KdTree.newF fuel constBox nineShapes = none := by
  have hmap : nineShapes.map constBox = nineBoxes := by with_unfolding_all decide
  have hnode : ∀ fuel : Nat, Node.newF fuel nineShapes nineBoxes = none := by
    intro fuel
    induction fuel with
    | zero => rfl
    | succ fuel ih =>
      rw [Node.newF]
      rw [if_neg (by decide : ¬ (nineShapes.length ≤ LEAF_SIZE))]
      simp only [nineBoxes_best, nineBoxes_partition, ih]
  intro fuel
  unfold KdTree.newF
  rw [hmap, hnode fuel]
  rfl

theorem axisCandidate_isSome {α : Type} [LinearOrderedField α] (bboxes : List (Aabb α))
    (h : bboxes ≠ []) (ax : Axis) : ∃ v, axisCandidate bboxes ax = some v := by
  unfold axisCandidate ksmallest
  have hlt : bboxes.length / 2 <
      ((bboxes.map fun b => (Aabb.center b).get ax).mergeSort
        fun a b => decide (a ≤ b)).length := by
    rw [List.length_mergeSort, List.length_map]
    exact Nat.div_lt_self (List.length_pos.2 h) (by omega)
  rw [List.getElem?_eq_getElem hlt]
  exact ⟨_, rfl⟩

/-- C8: for a non-empty collection of boxes, `best_partitioning` returns one of the
three axis candidates (the median of the box centers along that axis) and its
`partion_score` — the larger of the two membership counts — is minimal among the
three candidates. -/
theorem c8_best_partitioning_minimal {α : Type} [LinearOrderedField α]
    (bboxes : List (Aabb α)) (h : bboxes ≠ []) :
    ∃ ax v, best_partitioning bboxes = some (ax, v) ∧
      axisCandidate bboxes ax = some v ∧
      ∀ ax2 v2, axisCandidate bboxes ax2 = some v2 →
        partion_score bboxes ax v ≤ partion_score bboxes ax2 v2 := by
  obtain ⟨vx, hx⟩ := axisCandidate_isSome bboxes h Axis.X
  obtain ⟨vy, hy⟩ := axisCandidate_isSome bboxes h Axis.Y
  obtain ⟨vz, hz⟩ := axisCandidate_isSome bboxes h Axis.Z
  have hval : ∀ ax2 v2, axisCandidate bboxes ax2 = some v2 →
      partion_score bboxes ax2 v2 =
        (match ax2 with
          | Axis.X => partion_score bboxes Axis.X vx
          | Axis.Y => partion_score bboxes Axis.Y vy
          | Axis.Z => partion_score bboxes Axis.Z vz) := by
    intro ax2 v2 h2
    cases ax2
    · rw [hx] at h2; cases h2; rfl
    · rw [hy] at h2; cases h2; rfl
    · rw [hz] at h2; cases h2; rfl
  unfold best_partitioning
  simp only [hx, hy, hz, minBy3]
  by_cases h1 : partion_score bboxes Axis.Y vy < partion_score bboxes Axis.X vx
  · rw [if_pos h1]
    by_cases h2 : partion_score bboxes Axis.Z vz < partion_score bboxes Axis.Y vy
    · rw [if_pos h2]
      refine ⟨Axis.Z, vz, rfl, hz, ?_⟩
      intro ax2 v2 hc
      rw [hval ax2 v2 hc]
      cases ax2 <;> dsimp only <;> omega
    · rw [if_neg h2]
      refine ⟨Axis.Y, vy, rfl, hy, ?_⟩
      intro ax2 v2 hc
      rw [hval ax2 v2 hc]
      cases ax2 <;> dsimp only <;> omega
  · rw [if_neg h1]
    by_cases h2 : partion_score bboxes Axis.Z vz < partion_score bboxes Axis.X vx
    · rw [if_pos h2]
      refine ⟨Axis.Z, vz, rfl, hz, ?_⟩
      intro ax2 v2 hc
      rw [hval ax2 v2 hc]
      cases ax2 <;> dsimp only <;> omega
    · rw [if_neg h2]
      refine ⟨Axis.X, vx, rfl, hx, ?_⟩
      intro ax2 v2 hc
      rw [hval ax2 v2 hc]
      cases ax2 <;> dsimp only <;> omega

theorem c8_witness :
    ∃ ax v, best_partitioning nineBoxes = some (ax, v) ∧
      axisCandidate nineBoxes ax = some v ∧
      ∀ ax2 v2, axisCandidate nineBoxes ax2 = some v2 →
        partion_score nineBoxes ax v ≤ partion_score nineBoxes ax2 v2 :=
  c8_best_partitioning_minimal nineBoxes (by with_unfolding_all decide)

theorem sphere_eval_in : sphere.ray_intersection ⟨0, 0, 0⟩ 1 rayIn = some 1 := by
  unfold sphere.ray_intersection rayIn
  simp only [Vec3.sub, Vec3.dot]
  norm_num

theorem sphere_eval_away : sphere.ray_intersection ⟨0, 0, 0⟩ 1 rayAway = none := by
  unfold sphere.ray_intersection rayAway
  simp only [Vec3.sub, Vec3.dot]
  norm_num

theorem leaf_single_query {α T : Type} [LinearOrderedField α]
    (hit : T → Ray α → Option α) (s : T) (ray : Ray α) :
    KdTree.intersection hit (⟨Node.leaf [s]⟩ : KdTree T α) ray =
      match hit s ray with
      | none => none
      | some t => if 0 ≤ t then some (s, t) else none := by
  unfold KdTree.intersection
  rw [Node.intersection]
  unfold bruteForce hitList
  cases h : hit s ray with
  | none => simp [h, minByT]
  | some t =>
    simp only [h, List.filterMap, Option.map_some']
    by_cases h0 : (0 : α) ≤ t
    · simp [List.filter, Fp.le, h0, minByT]
    · simp [List.filter, Fp.le, h0, minByT]

/-- C10: the sphere intersection routine never reports a hit parameter at or below
the epsilon `1e-9`; when the nearer root is at or below the epsilon the farther root
is returned if it exceeds the epsilon, and no hit otherwise. -/
theorem c10_sphere_epsilon (center : Vec3 ℝ) (radius : ℝ) (ray : Ray ℝ)
    (a b discr : ℝ) (ha : a = Vec3.dot ray.dir ray.dir)
    (hb : b = Vec3.dot (Vec3.sub ray.origin center) ray.dir)
    (hdiscr : discr = b ^ 2 -
      a * (Vec3.dot (Vec3.sub ray.origin center) (Vec3.sub ray.origin center) -
        radius ^ 2)) :
    (∀ t, sphere.ray_intersection center radius ray = some t → 1 / 1000000000 < t) ∧
    (0 ≤ discr → (-b - Real.sqrt discr) / a ≤ 1 / 1000000000 →
      1 / 1000000000 < (-b + Real.sqrt discr) / a →
      sphere.ray_intersection center radius ray = some ((-b + Real.sqrt discr) / a)) ∧
    (0 ≤ discr → (-b - Real.sqrt discr) / a ≤ 1 / 1000000000 →
      (-b + Real.sqrt discr) / a ≤ 1 / 1000000000 →
      sphere.ray_intersection center radius ray = none) := by
  subst ha hb hdiscr
  refine ⟨?_, ?_, ?_⟩
  · intro t ht
    unfold sphere.ray_intersection at ht
    dsimp only at ht
    split_ifs at ht with h1 h2 h3 <;> cases ht
    · exact h2
    · exact h3
  · intro h0 ht0 ht1
    unfold sphere.ray_intersection
    dsimp only
    rw [if_neg (not_lt.2 h0), if_neg (not_lt.2 ht0), if_pos ht1]
  · intro h0 ht0 ht1
    unfold sphere.ray_intersection
    dsimp only
    rw [if_neg (not_lt.2 h0), if_neg (not_lt.2 ht0), if_neg (not_lt.2 ht1)]

theorem c10_witness : (1 : ℝ) / 1000000000 < 1 :=
  (c10_sphere_epsilon ⟨0, 0, 0⟩ 1 rayIn
    (Vec3.dot rayIn.dir rayIn.dir)
    (Vec3.dot (Vec3.sub rayIn.origin ⟨0, 0, 0⟩) rayIn.dir)
    ((Vec3.dot (Vec3.sub rayIn.origin ⟨0, 0, 0⟩) rayIn.dir) ^ 2 -
      (Vec3.dot rayIn.dir rayIn.dir) *
        (Vec3.dot (Vec3.sub rayIn.origin ⟨0, 0, 0⟩) (Vec3.sub rayIn.origin ⟨0, 0, 0⟩) -
          1 ^ 2))
    rfl rfl rfl).1 1 sphere_eval_in

theorem zip_map_self {T β : Type} (f : T → β) :
    ∀ l : List T, l.zip (l.map f) = l.map fun s => (s, f s) := by
  intro l
  induction l with
  | nil => rfl
  | cons a l ih => simp [ih]

theorem partition_eq {α T : Type} [LinearOrderedField α] (bbox : T → Aabb α)
    (shapes : List T) (ax : Axis) (v : α) :
    partition shapes (shapes.map bbox) ax v =
      (((shapes.reverse.filter fun s => (partition_bbox (bbox s) ax v).1),
        (shapes.reverse.filter fun s => (partition_bbox (bbox s) ax v).1).map bbox),
       ((shapes.reverse.filter fun s => (partition_bbox (bbox s) ax v).2),
        (shapes.reverse.filter fun s => (partition_bbox (bbox s) ax v).2).map bbox)) := by
  unfold partition
  rw [zip_map_self, ← List.map_reverse]
  dsimp only
  rw [List.filter_map, List.filter_map]
  have hfst : (Prod.fst ∘ fun s : T => (s, bbox s)) = fun s : T => s := rfl
  have hsnd : (Prod.snd ∘ fun s : T => (s, bbox s)) = bbox := rfl
  have hc1 : ((fun p : T × Aabb α => (partition_bbox p.2 ax v).1) ∘ fun s : T => (s, bbox s)) =
      fun s : T => (partition_bbox (bbox s) ax v).1 := rfl
  have hc2 : ((fun p : T × Aabb α => (partition_bbox p.2 ax v).2) ∘ fun s : T => (s, bbox s)) =
      fun s : T => (partition_bbox (bbox s) ax v).2 := rfl
  simp only [List.map_map]
  rw [hfst, hsnd, hc1, hc2]
  simp [List.map_id']

theorem Node.shapes_branch {α T : Type} (l r : Node T α) (v : α) (ax : Axis) :
    (Node.branch l r v ax).shapes = l.shapes ++ r.shapes := rfl

theorem Node.shapes_leaf {α T : Type} (data : List T) :
    (Node.leaf data : Node T α).shapes = data := rfl

theorem Node.WF_branch_iff {α T : Type} [LinearOrder α] (bbox : T → Aabb α)
    (l r : Node T α) (v : α) (ax : Axis) :
    (Node.branch l r v ax).WF bbox ↔
      (l.WF bbox ∧ r.WF bbox ∧
        (∀ s ∈ l.shapes ++ r.shapes, Boxwf bbox s → (bbox s).min.get ax ≤ v →
          s ∈ l.shapes) ∧
        (∀ s ∈ l.shapes ++ r.shapes, Boxwf bbox s → v ≤ (bbox s).max.get ax →
          s ∈ r.shapes)) := Iff.rfl

theorem Node.newF_wf {α T : Type} [LinearOrderedField α] (bbox : T → Aabb α) :
    ∀ (fuel : Nat) (shapes : List T) (n : Node T α),
      Node.newF fuel shapes (shapes.map bbox) = some n →
      n.WF bbox ∧ (∀ s ∈ n.shapes, s ∈ shapes) ∧
        (∀ s ∈ shapes, Boxwf bbox s → s ∈ n.shapes) := by
  intro fuel
  induction fuel with
  | zero => intro shapes n h; exact Option.noConfusion h
  | succ fuel ih =>
    intro shapes n h
    rw [Node.newF] at h
    by_cases hlen : shapes.length ≤ LEAF_SIZE
    · rw [if_pos hlen] at h
      cases h
      exact ⟨trivial, fun s hs => hs, fun s hs _ => hs⟩
    · rw [if_neg hlen] at h
      cases hbp : best_partitioning (shapes.map bbox) with
      | none =>
        simp only [hbp] at h
        exact Option.noConfusion h
      | some pv =>
        obtain ⟨ax, v⟩ := pv
        simp only [hbp, partition_eq bbox shapes ax v] at h
        cases hL : Node.newF fuel
            (shapes.reverse.filter fun s => (partition_bbox (bbox s) ax v).1)
            ((shapes.reverse.filter fun s => (partition_bbox (bbox s) ax v).1).map bbox) with
        | none =>
          simp only [hL] at h
          exact Option.noConfusion h
        | some nl =>
          cases hR : Node.newF fuel
              (shapes.reverse.filter fun s => (partition_bbox (bbox s) ax v).2)
              ((shapes.reverse.filter fun s => (partition_bbox (bbox s) ax v).2).map bbox) with
          | none =>
            simp only [hL, hR] at h
            exact Option.noConfusion h
          | some nr =>
            simp only [hL, hR] at h
            cases h
            obtain ⟨hWl, hSl, hCl⟩ := ih _ nl hL
            obtain ⟨hWr, hSr, hCr⟩ := ih _ nr hR
            have hmemL : ∀ s : T,
                (s ∈ shapes.reverse.filter fun s => (partition_bbox (bbox s) ax v).1) ↔
                  s ∈ shapes ∧ (bbox s).min.get ax ≤ v := by
              intro s
              simp [List.mem_filter, partition_bbox]
            have hmemR : ∀ s : T,
                (s ∈ shapes.reverse.filter fun s => (partition_bbox (bbox s) ax v).2) ↔
                  s ∈ shapes ∧ v ≤ (bbox s).max.get ax := by
              intro s
              simp [List.mem_filter, partition_bbox]
            have hsubL : ∀ s ∈ nl.shapes, s ∈ shapes :=
              fun s hs => ((hmemL s).1 (hSl s hs)).1
            have hsubR : ∀ s ∈ nr.shapes, s ∈ shapes :=
              fun s hs => ((hmemR s).1 (hSr s hs)).1
            refine ⟨(Node.WF_branch_iff bbox nl nr v ax).2 ⟨hWl, hWr, ?_, ?_⟩, ?_, ?_⟩
            · intro s hs hwfs hmin
              have hsS : s ∈ shapes := by
                rcases List.mem_append.1 hs with h2 | h2
                · exact hsubL s h2
                · exact hsubR s h2
              exact hCl s ((hmemL s).2 ⟨hsS, hmin⟩) hwfs
            · intro s hs hwfs hmax
              have hsS : s ∈ shapes := by
                rcases List.mem_append.1 hs with h2 | h2
                · exact hsubL s h2
                · exact hsubR s h2
              exact hCr s ((hmemR s).2 ⟨hsS, hmax⟩) hwfs
            · intro s hs
              rw [Node.shapes_branch] at hs
              rcases List.mem_append.1 hs with h2 | h2
              · exact hsubL s h2
              · exact hsubR s h2
            · intro s hs hwfs
              rw [Node.shapes_branch]
              by_cases hm : (bbox s).min.get ax ≤ v
              · exact List.mem_append_left _ (hCl s ((hmemL s).2 ⟨hs, hm⟩) hwfs)
              · have hv : v ≤ (bbox s).max.get ax :=
                  le_trans (le_of_lt (not_le.1 hm)) (hwfs ax)
                exact List.mem_append_right _ (hCr s ((hmemR s).2 ⟨hs, hv⟩) hwfs)

theorem Fp.le_fin_nan {α : Type} [LinearOrder α] (a : α) :
    Fp.le (Fp.fin a) (Fp.nan : Fp α) = false := rfl

theorem Fp.le_fin_ninf {α : Type} [LinearOrder α] (a : α) :
    Fp.le (Fp.fin a) (Fp.ninf : Fp α) = false := rfl

theorem le_tsplit_pos {α : Type} [LinearOrderedField α] {o v d t : α} (hd : 0 < d) :
    t ≤ (v - o) / d ↔ o + d * t ≤ v := by
  rw [le_div_iff hd]
  constructor <;> intro h <;> nlinarith

theorem tsplit_le_pos {α : Type} [LinearOrderedField α] {o v d t : α} (hd : 0 < d) :
    (v - o) / d ≤ t ↔ v ≤ o + d * t := by
  rw [div_le_iff hd]
  constructor <;> intro h <;> nlinarith

theorem le_tsplit_neg {α : Type} [LinearOrderedField α] {o v d t : α} (hd : d < 0) :
    t ≤ (v - o) / d ↔ v ≤ o + d * t := by
  rw [le_div_iff_of_neg hd]
  constructor <;> intro h <;> nlinarith

theorem tsplit_le_neg {α : Type} [LinearOrderedField α] {o v d t : α} (hd : d < 0) :
    (v - o) / d ≤ t ↔ o + d * t ≤ v := by
  rw [div_le_iff_of_neg hd]
  constructor <;> intro h <;> nlinarith

theorem BruteSpec.sub_shapes {α T : Type} [LinearOrder α] {hit : T → Ray α → Option α}
    {S1 S : List T} {ray : Ray α} {tmin tmax : Fp α} {R : Option (T × α)}
    (hsub : BruteSpec (ValidHit hit S1 ray tmin tmax) R)
    (hS1 : ∀ s ∈ S1, s ∈ S)
    (hdir : ∀ s t, ValidHit hit S ray tmin tmax s t → s ∈ S1) :
    BruteSpec (ValidHit hit S ray tmin tmax) R := by
  refine BruteSpec.congr_pred (fun s t => ?_) hsub
  constructor
  · rintro ⟨hm, h2, h3, h4⟩
    exact ⟨hS1 s hm, h2, h3, h4⟩
  · rintro ⟨hm, h2, h3, h4⟩
    exact ⟨hdir s t ⟨hm, h2, h3, h4⟩, h2, h3, h4⟩

theorem BruteSpec.split_interval {α T : Type} [LinearOrder α]
    {hit : T → Ray α → Option α} {S S1 S2 : List T} {ray : Ray α} {a ts : α}
    {tmax : Fp α} {R1 R2 : Option (T × α)}
    (h1 : BruteSpec (ValidHit hit S1 ray (Fp.fin a) (Fp.fin ts)) R1)
    (h2 : BruteSpec (ValidHit hit S2 ray (Fp.fin ts) tmax) R2)
    (hts_a : a ≤ ts)
    (hts_max : Fp.le (Fp.fin ts) tmax = true)
    (hS1 : ∀ s ∈ S1, s ∈ S) (hS2 : ∀ s ∈ S2, s ∈ S)
    (hsplit1 : ∀ s t, ValidHit hit S ray (Fp.fin a) tmax s t → t ≤ ts → s ∈ S1)
    (hsplit2 : ∀ s t, ValidHit hit S ray (Fp.fin a) tmax s t → ts ≤ t → s ∈ S2) :
    BruteSpec (ValidHit hit S ray (Fp.fin a) tmax) (R1.orElse fun _ => R2) := by
  refine BruteSpec.orElse_spec h1 h2 (fun s t => ?_) ?_
  · constructor
    · rintro ⟨hm, hh, hlo, hhi⟩
      rcases le_total t ts with hle | hge
      · refine Or.inl ⟨hsplit1 s t ⟨hm, hh, hlo, hhi⟩ hle, hh, hlo, ?_⟩
        rw [Fp.le_fin_fin]
        exact decide_eq_true hle
      · refine Or.inr ⟨hsplit2 s t ⟨hm, hh, hlo, hhi⟩ hge, hh, ?_, hhi⟩
        rw [Fp.le_fin_fin]
        exact decide_eq_true hge
    · rintro (⟨hm, hh, hlo, hhi⟩ | ⟨hm, hh, hlo, hhi⟩)
      · have ht_ts : t ≤ ts := by
          rw [Fp.le_fin_fin] at hhi
          exact of_decide_eq_true hhi
        refine ⟨hS1 s hm, hh, hlo, ?_⟩
        cases tmax with
        | nan => rw [Fp.le_fin_nan] at hts_max; exact Bool.noConfusion hts_max
        | ninf => rw [Fp.le_fin_ninf] at hts_max; exact Bool.noConfusion hts_max
        | pinf => exact Fp.le_fin_pinf t
        | fin b =>
          rw [Fp.le_fin_fin] at hts_max ⊢
          exact decide_eq_true (le_trans ht_ts (of_decide_eq_true hts_max))
      · have hts_t : ts ≤ t := by
          rw [Fp.le_fin_fin] at hlo
          exact of_decide_eq_true hlo
        refine ⟨hS2 s hm, hh, ?_, hhi⟩
        rw [Fp.le_fin_fin]
        exact decide_eq_true (le_trans hts_a hts_t)
  · rintro s t s2 t2 ⟨_, _, _, h1hi⟩ ⟨_, _, h2lo, _⟩
    rw [Fp.le_fin_fin] at h1hi h2lo
    exact le_trans (of_decide_eq_true h1hi) (of_decide_eq_true h2lo)

theorem Node.intersection_spec {α T : Type} [LinearOrderedField α]
    (bbox : T → Aabb α) (hit : T → Ray α → Option α) (ray : Ray α)
    (hd : ∀ ax : Axis, ray.dir.get ax ≠ 0) :
    ∀ node : Node T α, node.WF bbox →
      (∀ s ∈ node.shapes, ∀ t, hit s ray = some t →
        InAabb (ray.pointAt t) (bbox s)) →
      ∀ a : α, 0 ≤ a → ∀ tmax : Fp α, (tmax = Fp.pinf ∨ ∃ b, tmax = Fp.fin b) →
      BruteSpec (ValidHit hit node.shapes ray (Fp.fin a) tmax)
        (Node.intersection hit node ray (Fp.fin a) tmax) := by
  intro node
  induction node with
  | leaf data =>
    intro _ _ a _ tmax _
    exact bruteForce_spec hit data ray (Fp.fin a) tmax
  | branch l r v ax ihl ihr =>
    intro hwf hcon a ha tmax htmax
    obtain ⟨hwl, hwr, hmem_left, hmem_right⟩ := (Node.WF_branch_iff bbox l r v ax).1 hwf
    rw [Node.shapes_branch] at hcon ⊢
    have hconl : ∀ s ∈ l.shapes, ∀ t, hit s ray = some t →
        InAabb (ray.pointAt t) (bbox s) :=
      fun s hs => hcon s (List.mem_append_left _ hs)
    have hconr : ∀ s ∈ r.shapes, ∀ t, hit s ray = some t →
        InAabb (ray.pointAt t) (bbox s) :=
      fun s hs => hcon s (List.mem_append_right _ hs)
    have hbox : ∀ s t, s ∈ l.shapes ++ r.shapes → hit s ray = some t → Boxwf bbox s :=
      fun s t hs hh ax2 => le_trans ((hcon s hs t hh) ax2).1 ((hcon s hs t hh) ax2).2
    have hgoleft : ∀ s t, s ∈ l.shapes ++ r.shapes → hit s ray = some t →
        ray.origin.get ax + ray.dir.get ax * t ≤ v → s ∈ l.shapes := by
      intro s t hs hh hple
      refine hmem_left s hs (hbox s t hs hh) ?_
      have h2 := ((hcon s hs t hh) ax).1
      rw [Ray.pointAt_get] at h2
      exact le_trans h2 hple
    have hgoright : ∀ s t, s ∈ l.shapes ++ r.shapes → hit s ray = some t →
        v ≤ ray.origin.get ax + ray.dir.get ax * t → s ∈ r.shapes := by
      intro s t hs hh hple
      refine hmem_right s hs (hbox s t hs hh) ?_
      have h2 := ((hcon s hs t hh) ax).2
      rw [Ray.pointAt_get] at h2
      exact le_trans hple h2
    rw [Node.intersection]
    rw [fdiv_of_ne (v - ray.origin.get ax) (ray.dir.get ax) (hd ax)]
    set ts := (v - ray.origin.get ax) / ray.dir.get ax with hts
    by_cases hlf : (ray.origin.get ax < v ∨ (ray.origin.get ax = v ∧ ray.dir.get ax ≤ 0))
    · rw [if_pos hlf]
      rcases lt_or_gt_of_ne (hd ax) with hneg | hpos
      · -- direction negative on the split axis: t_split <= 0, only the left child
        have ho : ray.origin.get ax ≤ v := by
          rcases hlf with h | h
          · exact le_of_lt h
          · exact le_of_eq h.1
        have hts0 : ts ≤ 0 := by
          rw [hts, div_nonpos_iff]
          exact Or.inl ⟨sub_nonneg.2 ho, hneg.le⟩
        have hc1 : (Fp.lt tmax (Fp.fin ts) || Fp.le (Fp.fin ts) (Fp.fin 0)) = true := by
          rw [Fp.le_fin_fin, decide_eq_true hts0, Bool.or_true]
        rw [hc1, if_pos rfl]
        refine BruteSpec.sub_shapes (ihl hwl hconl a ha tmax htmax)
          (fun s hs => List.mem_append_left _ hs) ?_
        intro s t hv
        obtain ⟨hm, hh, hlo, hhi⟩ := hv
        have hta : a ≤ t := by
          rw [Fp.le_fin_fin] at hlo
          exact of_decide_eq_true hlo
        have ht0 : (0 : α) ≤ t := le_trans ha hta
        refine hgoleft s t hm hh ?_
        nlinarith [ht0, hneg, ho]
      · -- direction positive, origin strictly left of the plane
        have ho2 : ray.origin.get ax < v := by
          rcases hlf with h | h
          · exact h
          · exact absurd h.2 (not_le.2 hpos)
        have hts_pos : 0 < ts := by
          rw [hts]
          exact div_pos (sub_pos.2 ho2) hpos
        have hle_ts : ∀ t : α, t ≤ ts ↔ ray.origin.get ax + ray.dir.get ax * t ≤ v := by
          intro t
          rw [hts]
          exact le_tsplit_pos hpos
        have hts_le : ∀ t : α, ts ≤ t ↔ v ≤ ray.origin.get ax + ray.dir.get ax * t := by
          intro t
          rw [hts]
          exact tsplit_le_pos hpos
        have hc_nle : Fp.le (Fp.fin ts) (Fp.fin 0) = false := by
          rw [Fp.le_fin_fin]
          exact decide_eq_false (not_le.2 hts_pos)
        rcases htmax with rfl | ⟨B, rfl⟩
        · have hc1 : (Fp.lt Fp.pinf (Fp.fin ts) || Fp.le (Fp.fin ts) (Fp.fin 0)) = false := by
            rw [Fp.lt_pinf_fin, hc_nle]
            rfl
          rw [hc1, if_neg Bool.false_ne_true]
          by_cases hta : ts < a
          · rw [show Fp.lt (Fp.fin ts) (Fp.fin a) = true from by
              rw [Fp.lt_fin_fin]; exact decide_eq_true hta, if_pos rfl]
            refine BruteSpec.sub_shapes (ihr hwr hconr a ha Fp.pinf (Or.inl rfl))
              (fun s hs => List.mem_append_right _ hs) ?_
            intro s t hv
            obtain ⟨hm, hh, hlo, hhi⟩ := hv
            have hta2 : a ≤ t := by
              rw [Fp.le_fin_fin] at hlo
              exact of_decide_eq_true hlo
            exact hgoright s t hm hh ((hts_le t).1 (le_trans hta.le hta2))
          · rw [show Fp.lt (Fp.fin ts) (Fp.fin a) = false from by
              rw [Fp.lt_fin_fin]; exact decide_eq_false hta, if_neg Bool.false_ne_true]
            refine BruteSpec.split_interval
              (ihl hwl hconl a ha (Fp.fin ts) (Or.inr ⟨ts, rfl⟩))
              (ihr hwr hconr ts hts_pos.le Fp.pinf (Or.inl rfl)) (not_lt.1 hta) rfl
              (fun s hs => List.mem_append_left _ hs)
              (fun s hs => List.mem_append_right _ hs) ?_ ?_
            · intro s t hv hle
              obtain ⟨hm, hh, _, _⟩ := hv
              exact hgoleft s t hm hh ((hle_ts t).1 hle)
            · intro s t hv hge
              obtain ⟨hm, hh, _, _⟩ := hv
              exact hgoright s t hm hh ((hts_le t).1 hge)
        · by_cases hBt : B < ts
          · have hc1 : (Fp.lt (Fp.fin B) (Fp.fin ts) || Fp.le (Fp.fin ts) (Fp.fin 0)) = true := by
              rw [Fp.lt_fin_fin, decide_eq_true hBt, Bool.true_or]
            rw [hc1, if_pos rfl]
            refine BruteSpec.sub_shapes (ihl hwl hconl a ha (Fp.fin B) (Or.inr ⟨B, rfl⟩))
              (fun s hs => List.mem_append_left _ hs) ?_
            intro s t hv
            obtain ⟨hm, hh, hlo, hhi⟩ := hv
            have htB : t ≤ B := by
              rw [Fp.le_fin_fin] at hhi
              exact of_decide_eq_true hhi
            exact hgoleft s t hm hh ((hle_ts t).1 (le_trans htB hBt.le))
          · have hc1 : (Fp.lt (Fp.fin B) (Fp.fin ts) || Fp.le (Fp.fin ts) (Fp.fin 0)) = false := by
              rw [Fp.lt_fin_fin, decide_eq_false hBt, hc_nle]
              rfl
            rw [hc1, if_neg Bool.false_ne_true]
            by_cases hta : ts < a
            · rw [show Fp.lt (Fp.fin ts) (Fp.fin a) = true from by
                rw [Fp.lt_fin_fin]; exact decide_eq_true hta, if_pos rfl]
              refine BruteSpec.sub_shapes (ihr hwr hconr a ha (Fp.fin B) (Or.inr ⟨B, rfl⟩))
                (fun s hs => List.mem_append_right _ hs) ?_
              intro s t hv
              obtain ⟨hm, hh, hlo, hhi⟩ := hv
              have hta2 : a ≤ t := by
                rw [Fp.le_fin_fin] at hlo
                exact of_decide_eq_true hlo
              exact hgoright s t hm hh ((hts_le t).1 (le_trans hta.le hta2))
            · rw [show Fp.lt (Fp.fin ts) (Fp.fin a) = false from by
                rw [Fp.lt_fin_fin]; exact decide_eq_false hta, if_neg Bool.false_ne_true]
              refine BruteSpec.split_interval
                (ihl hwl hconl a ha (Fp.fin ts) (Or.inr ⟨ts, rfl⟩))
                (ihr hwr hconr ts hts_pos.le (Fp.fin B) (Or.inr ⟨B, rfl⟩)) (not_lt.1 hta)
                (by rw [Fp.le_fin_fin]; exact decide_eq_true (not_lt.1 hBt))
                (fun s hs => List.mem_append_left _ hs)
                (fun s hs => List.mem_append_right _ hs) ?_ ?_
              · intro s t hv hle
                obtain ⟨hm, hh, _, _⟩ := hv
                exact hgoleft s t hm hh ((hle_ts t).1 hle)
              · intro s t hv hge
                obtain ⟨hm, hh, _, _⟩ := hv
                exact hgoright s t hm hh ((hts_le t).1 hge)
    · rw [if_neg hlf]
      obtain ⟨hnlt, hno⟩ := not_or.1 hlf
      have h1 : v ≤ ray.origin.get ax := not_lt.1 hnlt
      rcases lt_or_gt_of_ne (hd ax) with hneg | hpos
      · -- direction negative, origin strictly right of the plane
        have h2 : v < ray.origin.get ax := by
          rcases eq_or_lt_of_le h1 with heq | hlt
          · exact absurd ⟨heq.symm, hneg.le⟩ hno
          · exact hlt
        have hts_pos : 0 < ts := by
          rw [hts]
          exact div_pos_of_neg_of_neg (sub_neg.2 h2) hneg
        have hle_ts : ∀ t : α, t ≤ ts ↔ v ≤ ray.origin.get ax + ray.dir.get ax * t := by
          intro t
          rw [hts]
          exact le_tsplit_neg hneg
        have hts_le : ∀ t : α, ts ≤ t ↔ ray.origin.get ax + ray.dir.get ax * t ≤ v := by
          intro t
          rw [hts]
          exact tsplit_le_neg hneg
        have hc_nle : Fp.le (Fp.fin ts) (Fp.fin 0) = false := by
          rw [Fp.le_fin_fin]
          exact decide_eq_false (not_le.2 hts_pos)
        rcases htmax with rfl | ⟨B, rfl⟩
        · have hc1 : (Fp.lt Fp.pinf (Fp.fin ts) || Fp.le (Fp.fin ts) (Fp.fin 0)) = false := by
            rw [Fp.lt_pinf_fin, hc_nle]
            rfl
          rw [hc1, if_neg Bool.false_ne_true]
          by_cases hta : ts < a
          · rw [show Fp.lt (Fp.fin ts) (Fp.fin a) = true from by
              rw [Fp.lt_fin_fin]; exact decide_eq_true hta, if_pos rfl]
            refine BruteSpec.sub_shapes (ihl hwl hconl a ha Fp.pinf (Or.inl rfl))
              (fun s hs => List.mem_append_left _ hs) ?_
            intro s t hv
            obtain ⟨hm, hh, hlo, hhi⟩ := hv
            have hta2 : a ≤ t := by
              rw [Fp.le_fin_fin] at hlo
              exact of_decide_eq_true hlo
            exact hgoleft s t hm hh ((hts_le t).1 (le_trans hta.le hta2))
          · rw [show Fp.lt (Fp.fin ts) (Fp.fin a) = false from by
              rw [Fp.lt_fin_fin]; exact decide_eq_false hta, if_neg Bool.false_ne_true]
            refine BruteSpec.split_interval
              (ihr hwr hconr a ha (Fp.fin ts) (Or.inr ⟨ts, rfl⟩))
              (ihl hwl hconl ts hts_pos.le Fp.pinf (Or.inl rfl)) (not_lt.1 hta) rfl
              (fun s hs => List.mem_append_right _ hs)
              (fun s hs => List.mem_append_left _ hs) ?_ ?_
            · intro s t hv hle
              obtain ⟨hm, hh, _, _⟩ := hv
              exact hgoright s t hm hh ((hle_ts t).1 hle)
            · intro s t hv hge
              obtain ⟨hm, hh, _, _⟩ := hv
              exact hgoleft s t hm hh ((hts_le t).1 hge)
        · by_cases hBt : B < ts
          · have hc1 : (Fp.lt (Fp.fin B) (Fp.fin ts) || Fp.le (Fp.fin ts) (Fp.fin 0)) = true := by
              rw [Fp.lt_fin_fin, decide_eq_true hBt, Bool.true_or]
            rw [hc1, if_pos rfl]
            refine BruteSpec.sub_shapes (ihr hwr hconr a ha (Fp.fin B) (Or.inr ⟨B, rfl⟩))
              (fun s hs => List.mem_append_right _ hs) ?_
            intro s t hv
            obtain ⟨hm, hh, hlo, hhi⟩ := hv
            have htB : t ≤ B := by
              rw [Fp.le_fin_fin] at hhi
              exact of_decide_eq_true hhi
            exact hgoright s t hm hh ((hle_ts t).1 (le_trans htB hBt.le))
          · have hc1 : (Fp.lt (Fp.fin B) (Fp.fin ts) || Fp.le (Fp.fin ts) (Fp.fin 0)) = false := by
              rw [Fp.lt_fin_fin, decide_eq_false hBt, hc_nle]
              rfl
            rw [hc1, if_neg Bool.false_ne_true]
            by_cases hta : ts < a
            · rw [show Fp.lt (Fp.fin ts) (Fp.fin a) = true from by
                rw [Fp.lt_fin_fin]; exact decide_eq_true hta, if_pos rfl]
              refine BruteSpec.sub_shapes (ihl hwl hconl a ha (Fp.fin B) (Or.inr ⟨B, rfl⟩))
                (fun s hs => List.mem_append_left _ hs) ?_
              intro s t hv
              obtain ⟨hm, hh, hlo, hhi⟩ := hv
              have hta2 : a ≤ t := by
                rw [Fp.le_fin_fin] at hlo
                exact of_decide_eq_true hlo
              exact hgoleft s t hm hh ((hts_le t).1 (le_trans hta.le hta2))
            · rw [show Fp.lt (Fp.fin ts) (Fp.fin a) = false from by
                rw [Fp.lt_fin_fin]; exact decide_eq_false hta, if_neg Bool.false_ne_true]
              refine BruteSpec.split_interval
                (ihr hwr hconr a ha (Fp.fin ts) (Or.inr ⟨ts, rfl⟩))
                (ihl hwl hconl ts hts_pos.le (Fp.fin B) (Or.inr ⟨B, rfl⟩)) (not_lt.1 hta)
                (by rw [Fp.le_fin_fin]; exact decide_eq_true (not_lt.1 hBt))
                (fun s hs => List.mem_append_right _ hs)
                (fun s hs => List.mem_append_left _ hs) ?_ ?_
              · intro s t hv hle
                obtain ⟨hm, hh, _, _⟩ := hv
                exact hgoright s t hm hh ((hle_ts t).1 hle)
              · intro s t hv hge
                obtain ⟨hm, hh, _, _⟩ := hv
                exact hgoleft s t hm hh ((hts_le t).1 hge)
      · -- direction positive, origin at or right of the plane: t_split <= 0, right child only
        have hts0 : ts ≤ 0 := by
          rw [hts, div_nonpos_iff]
          exact Or.inr ⟨sub_nonpos.2 h1, hpos.le⟩
        have hc1 : (Fp.lt tmax (Fp.fin ts) || Fp.le (Fp.fin ts) (Fp.fin 0)) = true := by
          rw [Fp.le_fin_fin, decide_eq_true hts0, Bool.or_true]
        rw [hc1, if_pos rfl]
        refine BruteSpec.sub_shapes (ihr hwr hconr a ha tmax htmax)
          (fun s hs => List.mem_append_right _ hs) ?_
        intro s t hv
        obtain ⟨hm, hh, hlo, hhi⟩ := hv
        have hta : a ≤ t := by
          rw [Fp.le_fin_fin] at hlo
          exact of_decide_eq_true hlo
        have ht0 : (0 : α) ≤ t := le_trans ha hta
        refine hgoright s t hm hh ?_
        nlinarith [ht0, hpos, h1]

/-- C1 fails as stated on the code: `shapes9` builds (with budget 2) a branch on the
plane `x = 4` whose shape 4 straddles the plane and is hit by `ray9` at parameter 1,
but `ray9` lies inside the split plane (origin on the plane, direction component
zero), so `t_split` is NaN, the traversal passes a NaN bound to both children, and
the query returns no hit while the brute-force scan returns `(4, 1)`. -/
theorem c1_counterexample :
    (KdTree.newF 2 bbox9 shapes9).map (fun kd => KdTree.intersection hit9 kd ray9) =
      some none ∧
    bruteForce hit9 shapes9 ray9 (Fp.fin 0) Fp.pinf = some (4, 1) := by
  with_unfolding_all decide

/-- C1 (amended): for every finite shape collection whose intersection routines only
report hits lying inside the shape's bounding box, and every ray all of whose
direction components are nonzero, the query over `[0, +infinity)` of any tree the
builder produces agrees with the brute-force scan: it returns no hit exactly when
the scan finds none, and any returned pair is a valid hit whose parameter equals the
scan's minimal parameter (the shape may differ only among coincident distances). -/
theorem c1_amended {α T : Type} [LinearOrderedField α] (fuel : Nat)
    (bbox : T → Aabb α) (hit : T → Ray α → Option α) (shapes : List T) (ray : Ray α)
    (kd : KdTree T α) (hbuild : KdTree.newF fuel bbox shapes = some kd)
    (hdir : ∀ ax : Axis, ray.dir.get ax ≠ 0)
    (hcon : ∀ s ∈ shapes, ∀ t, hit s ray = some t → InAabb (ray.pointAt t) (bbox s)) :
    (KdTree.intersection hit kd ray = none ↔
      bruteForce hit shapes ray (Fp.fin 0) Fp.pinf = none) ∧
    (∀ s t, KdTree.intersection hit kd ray = some (s, t) →
      ValidHit hit shapes ray (Fp.fin 0) Fp.pinf s t ∧
      ∀ s2 t2, bruteForce hit shapes ray (Fp.fin 0) Fp.pinf = some (s2, t2) →
        t = t2) := by
  unfold KdTree.newF at hbuild
  cases hn : Node.newF fuel shapes (shapes.map bbox) with
  | none =>
    rw [hn] at hbuild
    exact Option.noConfusion hbuild
  | some root =>
    rw [hn] at hbuild
    simp only [Option.map_some'] at hbuild
    cases hbuild
    obtain ⟨hWF, hsub, hcomp⟩ := Node.newF_wf bbox fuel shapes root hn
    have hconroot : ∀ s ∈ root.shapes, ∀ t, hit s ray = some t →
        InAabb (ray.pointAt t) (bbox s) :=
      fun s hs => hcon s (hsub s hs)
    have hspec1 := Node.intersection_spec bbox hit ray hdir root hWF hconroot 0
      le_rfl Fp.pinf (Or.inl rfl)
    have hspec2 := bruteForce_spec hit shapes ray (Fp.fin 0) Fp.pinf
    have hiff : ∀ s t, ValidHit hit root.shapes ray (Fp.fin 0) Fp.pinf s t ↔
        ValidHit hit shapes ray (Fp.fin 0) Fp.pinf s t := by
      intro s t
      constructor
      · rintro ⟨hm, hh, h3, h4⟩
        exact ⟨hsub s hm, hh, h3, h4⟩
      · rintro ⟨hm, hh, h3, h4⟩
        have hwfs : Boxwf bbox s := fun ax2 =>
          le_trans ((hcon s hm t hh) ax2).1 ((hcon s hm t hh) ax2).2
        exact ⟨hcomp s hm hwfs, hh, h3, h4⟩
    have hspec1b : BruteSpec (ValidHit hit shapes ray (Fp.fin 0) Fp.pinf)
        (KdTree.intersection hit ⟨root⟩ ray) :=
      BruteSpec.congr_pred hiff hspec1
    have huniq := BruteSpec.unique hspec1b hspec2
    refine ⟨huniq.1, ?_⟩
    intro s t hq
    rw [hq] at hspec1b
    exact ⟨hspec1b.1, fun s2 t2 hb => huniq.2 s t s2 t2 hq hb⟩

theorem c1_witness :
    ((KdTree.intersection oneHit (⟨Node.leaf [0]⟩ : KdTree ℕ ℚ) oneRay = none ↔
      bruteForce oneHit [0] oneRay (Fp.fin 0) Fp.pinf = none) ∧
     (∀ s t, KdTree.intersection oneHit (⟨Node.leaf [0]⟩ : KdTree ℕ ℚ) oneRay =
         some (s, t) →
       ValidHit oneHit [0] oneRay (Fp.fin 0) Fp.pinf s t ∧
       ∀ s2 t2, bruteForce oneHit [0] oneRay (Fp.fin 0) Fp.pinf = some (s2, t2) →
         t = t2)) :=
  c1_amended 1 oneBox oneHit [0] oneRay ⟨Node.leaf [0]⟩
    (by with_unfolding_all decide)
    (by intro ax; cases ax <;> with_unfolding_all decide)
    (by
      intro s hs t ht
      have ht1 : (1 : ℚ) = t := Option.some.inj ht
      cases ht1
      intro ax2
      cases ax2 <;> constructor <;>
        norm_num [oneBox, oneRay, Ray.pointAt, Vec3.get])

/-- C9: for the scene of a single unit sphere at the origin, construction yields a
single-leaf tree; querying it with the ray from `(0,0,-2)` toward `(0,0,1)` hits the
sphere at parameter exactly 1, and with the ray from `(0,0,2)` toward `(0,0,1)`
returns no hit. -/
theorem c9_single_sphere :
    KdTree.newF 1 Sphere.bboxFn [unitSphere] = some ⟨Node.leaf [unitSphere]⟩ ∧
    KdTree.intersection Sphere.hitFn ⟨Node.leaf [unitSphere]⟩ rayIn =
      some (unitSphere, 1) ∧
    KdTree.intersection Sphere.hitFn ⟨Node.leaf [unitSphere]⟩ rayAway = none := by
  refine ⟨rfl, ?_, ?_⟩
  · have h1 : Sphere.hitFn unitSphere rayIn = some 1 := by
      unfold Sphere.hitFn unitSphere
      exact sphere_eval_in
    rw [leaf_single_query, h1]
    norm_num
  · have h2 : Sphere.hitFn unitSphere rayAway = none := by
      unfold Sphere.hitFn unitSphere
      exact sphere_eval_away
    rw [leaf_single_query, h2]

end R3d
